import Mathlib

/-!
Verification development for the tiled-uproot metadata collection and lookup
engine (`src/tiled_uproot/populate.py` and `src/tiled_uproot/extract.py`).

The Python code is shallowly embedded: every pure computation becomes a Lean
function, the collector's mutable state becomes explicit state passing, and
fallible operations (Python exceptions) return `Except`/`Option`.  Opaque
pickled interpretation objects are modelled by their observable content (the
`cache_key` used for comparisons); `pickle.dumps`/`pickle.loads` round-trip is
modelled as the identity, so serialized interpretations are the objects
themselves.
-/

/-! ## Path splitting

Embedding of Python `str.split("/")` and `"/".join(...)`, operating on the
character list of a string.  `splitSlash` matches Python semantics exactly:
`"".split("/") == [""]`, `"/".split("/") == ["", ""]`, etc.
-/

def splitSlash : List Char → List (List Char)
  | [] => [[]]
  | c :: rest =>
    match splitSlash rest with
    | [] => [[]]
    | p :: ps => if c = '/' then [] :: p :: ps else (c :: p) :: ps

/-- Embedding of Python `"/".join(parts)`. -/
def joinSlash : List (List Char) → List Char
  | [] => []
  | [p] => p
  | p :: ps => p ++ '/' :: joinSlash ps

/-! ## Stable sorting by branch name

Python's `sorted(branches, key=lambda x: x.name)` is a stable ascending sort
by the branch-name string.  Python compares strings lexicographically by code
point; `lexLe` is that comparison on character lists, and `pySorted` is a
stable insertion sort (processing elements left to right, inserting each new
element after existing equal elements), extensionally the behaviour of
Python's `sorted`.
-/

def lexLe : List Char → List Char → Bool
  | [], _ => true
  | _ :: _, [] => false
  | a :: as, b :: bs => if a < b then true else if b < a then false else lexLe as bs

def insortBy (le : α → α → Bool) (x : α) : List α → List α
  | [] => [x]
  | y :: ys => if le y x then y :: insortBy le x ys else x :: y :: ys

def pySorted (le : α → α → Bool) (l : List α) : List α :=
  l.foldl (fun acc x => insortBy le x acc) []

/-! ## Data model (populate.py) -/

/-- One basket descriptor, as assembled in `CollectedData.collect`:
`{"seek": x, "stop": y, "bytes": z}`. -/
structure Basket where
  seek : Nat
  stop : Nat
  bytes : Nat
deriving DecidableEq, Repr

/-- An interpretation object as far as this code observes it: the code only
ever compares `interpretation.cache_key` and passes the pickled object
through. -/
structure Interp where
  cacheKey : String
deriving DecidableEq, Repr

/-- One branch of an opened tree, as read by `collect`: its name, its
interpretation, and its basket layout (`fBasketSeek`, `fBasketEntry[1:]`,
`fBasketBytes`, already zipped into `Basket` records). -/
structure BranchIn where
  name : String
  interp : Interp
  baskets : List Basket
deriving DecidableEq, Repr

/-- A successfully opened tree: `tree.num_entries` and
`tree.values(recursive=True)`. -/
structure TreeInput where
  numEntries : Nat
  branches : List BranchIn
deriving DecidableEq, Repr

/-- What the external `uproot.open(...)` / `file[treename]` step yields for one
input file: the open itself may raise (`openFail`, not caught by `collect`),
the tree lookup may raise (`noTree`, caught by the bare `except`), or a tree
is produced. -/
inductive UprootResult where
  | openFail
  | noTree
  | tree (t : TreeInput)
deriving DecidableEq, Repr

/-- One `(filename, treename)` input to `collect`, plus what the external
parser yields for it. -/
structure CollectInput where
  filename : String
  treename : String
  result : UprootResult
deriving DecidableEq, Repr

/-- Errors that escape `collect`: a failing `uproot.open`, the basket/entry
count `assert`, the path-depth `assert`, and the `IndexError` from
`branch_data[i]` when the era has more names than this file has branches. -/
inductive CollectError where
  | openError
  | basketMismatch
  | pathTooShallow
  | indexError
deriving DecidableEq, Repr

/-- One era record held in `CollectedData.eras` (value of the dict keyed by
the era key). -/
structure EraRec where
  index : Nat
  treename : String
  names : List String
  interpretations : List Interp
deriving DecidableEq, Repr

/-- One record of `CollectedData.prefix_eras` (value of the dict keyed by the
prefix string). -/
structure PfxRec where
  index : Nat
  pfx : String
deriving DecidableEq, Repr

/-- One row of `CollectedData.lookup_table`.  `tree` is the dict
`{name: branch_data[i] for i, name in enumerate(era["names"])}`, modelled as
an association list in era-name order. -/
structure FileRow where
  filename : String
  tree : List (String × List Basket)
  era : Nat
  pfx : Nat
deriving DecidableEq, Repr

/-- The mutable state of a `CollectedData` instance.  The Python dicts
`eras` and `prefix_eras` (insertion-ordered, keyed by strings) are modelled
as association lists in insertion order. -/
structure CollectedData where
  eras : List (String × EraRec)
  entry_offsets : List Nat
  pfx_eras : List (String × PfxRec)
  lookup_table : List FileRow
deriving DecidableEq, Repr

/-- `CollectedData.__init__`: empty dicts, `entry_offsets = [0]`. -/
def initCollected : CollectedData :=
  { eras := [], entry_offsets := [0], pfx_eras := [], lookup_table := [] }

/-- The era key: `f"treename\n" + "\n".join(f"name\tcache_key" for sorted branches)`. -/
def eraKey (treename : String) (branches : List BranchIn) : String :=
  treename ++ "\n" ++ String.intercalate "\n"
    ((pySorted (fun a b => lexLe a.name.data b.name.data) branches).map
      (fun b => b.name ++ "\t" ++ b.interp.cacheKey))

/-- The per-branch `assert branch_data[-1][-1]["stop"] == num_entries`, guarded
by `num_entries > 0 and num_baskets > 0`. -/
def basketsOk (numEntries : Nat) (bks : List Basket) : Bool :=
  numEntries == 0 || bks.isEmpty || (bks.getLastD ⟨0, 0, 0⟩).stop == numEntries

/-- `"/".join(split_filename[:-prefix_depth]) + "/"` (the stored prefix). -/
def pathPfx (d : Nat) (filename : String) : String :=
  let parts := splitSlash filename.data
  String.mk (joinSlash (parts.take (parts.length - d)) ++ ['/'])

/-- `"/".join(split_filename[-prefix_depth:])` (the stored filename suffix). -/
def pathSuffix (d : Nat) (filename : String) : String :=
  let parts := splitSlash filename.data
  String.mk (joinSlash (parts.drop (parts.length - d)))

/-- Embedding of `CollectedData.collect` (prefix depth `d`).  The state
mutation under the lock is sequential state passing; a Python exception that
escapes `collect` is an `Except.error` (the partially mutated state that
Python would leave behind on an assertion failure is not needed by any claim
and is discarded with the error). -/
def CollectedData.collect (d : Nat) (st : CollectedData) (inp : CollectInput) :
    Except CollectError CollectedData :=
  match inp.result with
  | .openFail => .error .openError
  | .noTree => .ok st
  | .tree t =>
    let key := eraKey inp.treename t.branches
    let branchData := t.branches.map (·.baskets)
    if t.branches.all (fun b => basketsOk t.numEntries b.baskets) then
      if t.numEntries == 0 then .ok st
      else
        let era :=
          match st.eras.find? (fun p => p.1 == key) with
          | some p => p.2
          | none =>
            { index := st.eras.length, treename := inp.treename,
              names := t.branches.map (·.name),
              interpretations := t.branches.map (·.interp) }
        let eras' :=
          match st.eras.find? (fun p => p.1 == key) with
          | some _ => st.eras
          | none => st.eras ++ [(key, era)]
        let offsets' := st.entry_offsets ++ [st.entry_offsets.getLastD 0 + t.numEntries]
        let parts := splitSlash inp.filename.data
        if d ≤ parts.length then
          let pfxStr := pathPfx d inp.filename
          let lastName := pathSuffix d inp.filename
          let pfxRec :=
            match st.pfx_eras.find? (fun p => p.1 == pfxStr) with
            | some p => p.2
            | none => { index := st.pfx_eras.length, pfx := pfxStr }
          let pfxEras' :=
            match st.pfx_eras.find? (fun p => p.1 == pfxStr) with
            | some _ => st.pfx_eras
            | none => st.pfx_eras ++ [(pfxStr, pfxRec)]
          if era.names.length ≤ branchData.length then
            .ok { eras := eras',
                  entry_offsets := offsets',
                  pfx_eras := pfxEras',
                  lookup_table := st.lookup_table ++
                    [{ filename := lastName,
                       tree := era.names.zip branchData,
                       era := era.index,
                       pfx := pfxRec.index }] }
          else .error .indexError
        else .error .pathTooShallow
    else .error .basketMismatch

/-- A sequence of `collect` calls on one instance (stopping at the first
escaped exception). -/
def collectAll (d : Nat) (inputs : List CollectInput) : Except CollectError CollectedData :=
  inputs.foldlM (CollectedData.collect d) initCollected

/-- The number of entries an input contributes (`num_entries`, with the two
failure paths of the tree lookup contributing zero). -/
def inputEntries : CollectInput → Nat
  | ⟨_, _, .tree t⟩ => t.numEntries
  | _ => 0

/-! ## Serialized index array -/

/-- One serialized era record (`to_array` drops the `index` field). -/
structure Era where
  treename : String
  names : List String
  interpretations : List Interp
deriving DecidableEq, Repr

/-- The serialized index array: the single element of the outer one-element
wrapper list written by `to_array`/`concatenate`. -/
structure IndexArray where
  offsets : List Nat
  file : List FileRow
  era : List Era
  pfx : List String
deriving DecidableEq, Repr

/-- Embedding of `CollectedData.to_array` (the content of the one-element
wrapper). -/
def CollectedData.toArray (st : CollectedData) : IndexArray :=
  { offsets := st.entry_offsets,
    file := st.lookup_table,
    era := st.eras.map (fun p =>
      { treename := p.2.treename, names := p.2.names,
        interpretations := p.2.interpretations }),
    pfx := st.pfx_eras.map (fun p => p.2.pfx) }

/-- One iteration of the `for array in arrays` loop in `concatenate`:
the running offsets are extended by `offsets[-1] + array.offsets[1:]`, the
array's file rows get their era/prefix references shifted by the number of
eras/prefixes already placed, and the era/prefix tables are appended. -/
def concatStep (acc : IndexArray) (a : IndexArray) : IndexArray :=
  { offsets := acc.offsets ++ (a.offsets.drop 1).map (acc.offsets.getLastD 0 + ·),
    file := acc.file ++ a.file.map (fun r =>
      { r with era := acc.era.length + r.era, pfx := acc.pfx.length + r.pfx }),
    era := acc.era ++ a.era,
    pfx := acc.pfx ++ a.pfx }

/-- Embedding of `concatenate(arrays)`.  The Python code accumulates the
pieces in lists and concatenates them at the end; the net result is this
left fold starting from `offsets=[0]` and empty tables. -/
def concatenate (arrays : List IndexArray) : IndexArray :=
  arrays.foldl concatStep { offsets := [0], file := [], era := [], pfx := [] }

/-! ## Lookup engine (extract.py) -/

/-- Association-list read of a Python dict keyed by integers
(`d.get(k)` / `k in d`). -/
def dget (m : List (Nat × β)) (k : Nat) : Option β :=
  (m.find? (fun p => p.1 == k)).map (·.2)

/-- Association-list write `d[k] = v`: replace the value at an existing key,
else append (Python dict insertion order). -/
def dset (m : List (Nat × β)) (k : Nat) (v : β) : List (Nat × β) :=
  match m with
  | [] => [(k, v)]
  | p :: rest => if p.1 == k then (k, v) :: rest else p :: dset rest k v

/-- The lazily populated caches of a `TiledUproot` instance; the remote store
content itself is an `IndexArray` passed separately.  `offsets` is `_offsets`
(fetched eagerly in `__init__`); the other fields are the `_prefix`,
`_filenames`, `_eras`, `_treenames`, `_interpretations`, `_seekdata` dicts. -/
structure TUState where
  offsets : List Nat
  pfxCache : List (Nat × String)
  filenames : List (Nat × String)
  eras : List (Nat × Nat)
  treenames : List (Nat × String)
  interpretations : List (Nat × List (String × Interp))
  seekdata : List (Nat × List (String × List Basket))
deriving DecidableEq, Repr

/-- The `TiledUproot` state right after `__init__` against a store holding
`a`: `_offsets` fetched, every cache empty. -/
def initTU (a : IndexArray) : TUState :=
  { offsets := a.offsets, pfxCache := [], filenames := [], eras := [],
    treenames := [], interpretations := [], seekdata := [] }

/-- Record of which store slices a `_fetch_filedata` call touched: the file
row indices of the fetched `[index_start:index_stop]` slice, the era indices
fetched, and the prefix indices fetched. -/
structure FetchLog where
  fileIdx : List Nat
  eraIdx : List Nat
  pfxIdx : List Nat
deriving DecidableEq, Repr

/-- The body of the `for j, data in enumerate(fetched)` loop of
`_fetch_filedata`, for the row at global file index `i`: fetch the era
schema if not cached, fetch the prefix string if not cached, then record the
absolute filename `prefix + data["filename"]` and the era index. -/
def fetchOneRow (store : IndexArray) (i : Nat) (row : FileRow) (st : TUState) :
    TUState × List Nat × List Nat :=
  let stE :=
    if (dget st.treenames row.era).isSome then (st, ([] : List Nat))
    else
      let e := store.era.getD row.era ⟨"", [], []⟩
      ({ st with
          treenames := dset st.treenames row.era e.treename,
          interpretations := dset st.interpretations row.era
            (e.names.zip e.interpretations) }, [row.era])
  let stP :=
    match dget stE.1.pfxCache row.pfx with
    | some p => (p, stE.1, ([] : List Nat))
    | none =>
      let p := store.pfx.getD row.pfx ""
      (p, { stE.1 with pfxCache := dset stE.1.pfxCache row.pfx p }, [row.pfx])
  ({ stP.2.1 with
      filenames := dset stP.2.1.filenames i (stP.1 ++ row.filename),
      eras := dset stP.2.1.eras i row.era }, stE.2, stP.2.2)

/-- The `enumerate(fetched)` loop over the fetched slice, with `i` the global
index of the first row. -/
def fetchRowsGo (store : IndexArray) : Nat → List FileRow → TUState →
    TUState × List Nat × List Nat
  | _, [], st => (st, [], [])
  | i, r :: rs, st =>
    let one := fetchOneRow store i r st
    let rest := fetchRowsGo store (i + 1) rs one.1
    (rest.1, one.2.1 ++ rest.2.1, one.2.2 ++ rest.2.2)

/-- Embedding of `TiledUproot._fetch_filedata`.  If every file index in
`range(index_start, index_stop)` is already in `_filenames`, nothing is
fetched; otherwise the store slice `[index_start:index_stop]` of
`(filename, era, prefix)` triples is fetched whole and processed row by
row. -/
def fetchFiledata (store : IndexArray) (st : TUState) (istart istop : Nat) :
    TUState × FetchLog :=
  if (List.range' istart (istop - istart)).all (fun i => (dget st.filenames i).isSome) then
    (st, ⟨[], [], []⟩)
  else
    let rows := (store.file.drop istart).take (istop - istart)
    let r := fetchRowsGo store istart rows st
    (r.1, ⟨List.range' istart rows.length, r.2.1, r.2.2⟩)

/-- The `seen`-set deduplicating append used by `keys()`:
`if name not in seen: seen.add(name); keys.append(name)`. -/
def seenAdd (acc : List String) (n : String) : List String :=
  if acc.contains n then acc else acc ++ [n]

/-- Embedding of `TiledUproot.keys()` (no filters): first-seen-order union of
all eras' `names` lists, computed from the store's era table. -/
def keysFun (eras : List Era) : List String :=
  eras.foldl (fun acc e => e.names.foldl seenAdd acc) []

/-- One step of the `where`/`values` accumulation in `items()`: a new name is
appended, an already-seen name has its stored interpretation overwritten in
place (`values[where[name]] = interpretation`). -/
def itemsStep (acc : List (String × Interp)) (p : String × Interp) :
    List (String × Interp) :=
  match acc with
  | [] => [p]
  | q :: rest => if q.1 == p.1 then (q.1, p.2) :: rest else q :: itemsStep rest p

/-- Embedding of `TiledUproot.items()` (no filters): pairs
`(name, interpretation)` in first-seen name order, the interpretation being
the last one written for that name (loading a pickled interpretation is the
identity in this model). -/
def itemsFun (eras : List Era) : List (String × Interp) :=
  eras.foldl (fun acc e => (e.names.zip e.interpretations).foldl itemsStep acc) []

/-- First-seen-order deduplication of a flat list of names (the
specification-level description of `keys()`). -/
def firstSeenDedup (l : List String) : List String :=
  l.foldl seenAdd []

/-! ### `_file_index_range` -/

/-- Embedding of `np.searchsorted(a, v, side="right")` for a sorted `a`: the
number of elements `≤ v`. -/
def searchsortedRight (a : List Nat) (v : Int) : Nat :=
  a.countP (fun (x : Nat) => decide ((x : Int) ≤ v))

/-- Embedding of `TiledUproot._file_index_range`. -/
def fileIndexRange (offsets : List Nat) (entry_start entry_stop : Int) : Nat × Nat :=
  let last : Int := (offsets.getLastD 0 : Nat)
  let e1 := max 0 (min last entry_start)
  let e2 := max e1 (min last entry_stop)
  if e1 = e2 then (0, 0)
  else
    let i1 := searchsortedRight offsets e1 - 1
    let i2 := searchsortedRight offsets e2 - 1
    if (offsets.getD i2 0 : Int) ≠ e2 then (i1, i2 + 1) else (i1, i2)

/-! ### `_FakeBranch.interpretation` -/

/-- `tu._interpretations[tu._eras[i]][branch_name]`: the chained dict lookups
performed inside the `interpretation` loop. -/
def interpLookup (st : TUState) (nm : String) (i : Nat) : Option Interp :=
  (dget st.eras i).bind fun e =>
    (dget st.interpretations e).bind fun m =>
      ((m.find? (fun p => p.1 == nm)).map (·.2))

/-- The `TypeError` message raised on an interpretation change (Python repr
quoting of the branch name is omitted). -/
def interpMsg (nm fn : String) (off : Nat) : String :=
  "interpretation of TBranch " ++ nm ++ " changed in file\n\n    " ++ fn ++
    "\n\nset entry_stop=" ++ toString off ++ " to avoid it"

/-- Outcome of `_FakeBranch.interpretation`: a missing dict/list entry is a
Python `KeyError`/`IndexError` (`lookupError`), an interpretation change is
the `TypeError` with its message. -/
inductive InterpErr where
  | lookupError
  | typeError (msg : String)
deriving DecidableEq, Repr

/-- The `for i in range(tree._index_start, tree._index_stop)` loop of
`_FakeBranch.interpretation`, with `cur` the branch's `_interpretation`
accumulator (initially `None`). -/
def interpGo (st : TUState) (nm : String) : Option Interp → List Nat →
    Except InterpErr (Option Interp)
  | cur, [] => .ok cur
  | cur, i :: rest =>
    match interpLookup st nm i with
    | none => .error .lookupError
    | some interp =>
      match cur with
      | none => interpGo st nm (some interp) rest
      | some c =>
        if c.cacheKey == interp.cacheKey then interpGo st nm cur rest
        else
          match dget st.filenames i, st.offsets.get? i with
          | some fn, some off => .error (.typeError (interpMsg nm fn off))
          | _, _ => .error .lookupError

/-- Embedding of the `interpretation` property body (the resolution loop; the
result is the branch's resolved interpretation, still `none` if the file
index range is empty). -/
def interpretationResolve (st : TUState) (nm : String) (istart istop : Nat) :
    Except InterpErr (Option Interp) :=
  interpGo st nm none (List.range' istart (istop - istart))

/-! ### `entries_to_ranges_or_baskets` -/

/-- The inner basket loop for one file: `global_start` begins at the file's
offset and is advanced to each basket's `global_stop`; a basket is emitted
when `global_stop > global_start and entry_start < global_stop and
global_start <= entry_stop`.  Each emission carries the byte range and the
basket's entry-span length (appended to `_entry_offsets`). -/
def fileBaskets (es et offi : Nat) : Nat → List Basket → List ((Nat × Nat) × Nat)
  | _, [] => []
  | gs, b :: rest =>
    let gstop := offi + b.stop
    let tail := fileBaskets es et offi gstop rest
    if gs < gstop && es < gstop && gs ≤ et then
      ((b.seek, b.seek + b.bytes), gstop - gs) :: tail
    else tail

/-- The outer file loop: for each file index, look up `tu._offsets[i]` and
`tu._seekdata[i][branch_name]` (a missing entry is a Python
`KeyError`/`IndexError`, hence `Option`), and emit that file's baskets tagged
with the file index. -/
def etrFiles (offsets : List Nat) (sdata : List (Nat × List (String × List Basket)))
    (nm : String) (es et : Nat) : List Nat → Option (List ((Nat × Nat) × Nat × Nat))
  | [] => some []
  | i :: rest =>
    match offsets.get? i, dget sdata i with
    | some off, some m =>
      match (m.find? (fun p => p.1 == nm)).map (·.2),
            etrFiles offsets sdata nm es et rest with
      | some bks, some tail =>
        some ((fileBaskets es et off off bks).map (fun r => (r.1, r.2, i)) ++ tail)
      | _, _ => none
    | _, _ => none

/-- `self._entry_offsets`: starts at `[0]` and appends the running sum of the
emitted entry-span lengths. -/
def cumsum (start : Nat) : List Nat → List Nat
  | [] => [start]
  | x :: rest => start :: cumsum (start + x) rest

/-- Embedding of `_FakeBranch.entries_to_ranges_or_baskets` over the file
index range `[istart, istop)`: returns `out` (enumerated byte ranges), the
`_range_to_file_index` list, and the final `_entry_offsets` list. -/
def entriesToRangesOrBaskets (offsets : List Nat)
    (sdata : List (Nat × List (String × List Basket))) (nm : String)
    (istart istop es et : Nat) :
    Option (List (Nat × (Nat × Nat)) × List Nat × List Nat) :=
  (etrFiles offsets sdata nm es et (List.range' istart (istop - istart))).map
    fun l => ((l.map (fun r => r.1)).enum, l.map (fun r => r.2.2),
              cumsum 0 (l.map (fun r => r.2.1)))

/-- The emitted byte ranges paired with their recorded source file index, in
emission order. -/
def emittedRanges (offsets : List Nat)
    (sdata : List (Nat × List (String × List Basket))) (nm : String)
    (istart istop es et : Nat) : Option (List ((Nat × Nat) × Nat)) :=
  (etrFiles offsets sdata nm es et (List.range' istart (istop - istart))).map
    fun l => l.map (fun r => (r.1, r.2.2))

/-- The global entry spans of a file's baskets: basket `k` spans
`[off + stop_(k-1), off + stop_k)` (with `stop_(-1) = 0`, i.e. the span
starts at the file's global offset). -/
def basketSpans (offi : Nat) : Nat → List Basket → List ((Nat × Nat) × Basket)
  | _, [] => []
  | gs, b :: rest => ((gs, offi + b.stop), b) :: basketSpans offi (offi + b.stop) rest

/-- Declarative form of what the code emits: per file in index order, one
byte range per basket with a non-empty span satisfying
`entry_start < global_stop` and `global_start ≤ entry_stop` (the source's
boundary-inclusive condition), tagged with the file index. -/
def codeSpanList (offsets : List Nat)
    (sdata : List (Nat × List (String × List Basket))) (nm : String)
    (es et : Nat) : List Nat → Option (List ((Nat × Nat) × Nat))
  | [] => some []
  | i :: rest =>
    match offsets.get? i, dget sdata i with
    | some off, some m =>
      match (m.find? (fun p => p.1 == nm)).map (·.2),
            codeSpanList offsets sdata nm es et rest with
      | some bks, some tail =>
        some (((basketSpans off off bks).filter
            (fun s => s.1.1 < s.1.2 && es < s.1.2 && s.1.1 ≤ et)).map
            (fun s => ((s.2.seek, s.2.seek + s.2.bytes), i)) ++ tail)
      | _, _ => none
    | _, _ => none

/-- What the claim states the code emits: per file in index order, one byte
range per basket whose (non-empty) global entry span overlaps the half-open
interval `[entry_start, entry_stop)`, tagged with the file index. -/
def claimSpanList (offsets : List Nat)
    (sdata : List (Nat × List (String × List Basket))) (nm : String)
    (es et : Nat) : List Nat → Option (List ((Nat × Nat) × Nat))
  | [] => some []
  | i :: rest =>
    match offsets.get? i, dget sdata i with
    | some off, some m =>
      match (m.find? (fun p => p.1 == nm)).map (·.2),
            claimSpanList offsets sdata nm es et rest with
      | some bks, some tail =>
        some (((basketSpans off off bks).filter
            (fun s => s.1.1 < s.1.2 && es < s.1.2 && s.1.1 < et)).map
            (fun s => ((s.2.seek, s.2.seek + s.2.bytes), i)) ++ tail)
      | _, _ => none
    | _, _ => none

/-! ## Helper lemmas -/

theorem dget_nil (k : Nat) : dget ([] : List (Nat × β)) k = none := rfl

theorem dget_cons (p : Nat × β) (rest : List (Nat × β)) (k : Nat) :
    dget (p :: rest) k = if p.1 = k then some p.2 else dget rest k := by
  by_cases h : p.1 = k
  · simp [dget, List.find?_cons_of_pos, h]
  · simp [dget, List.find?_cons_of_neg, h]

theorem dget_dset_self (m : List (Nat × β)) (k : Nat) (v : β) :
    dget (dset m k v) k = some v := by
  induction m with
  | nil => simp [dset, dget_cons]
  | cons p rest ih =>
    by_cases h : p.1 = k
    · simp [dset, h, dget_cons]
    · simp [dset, h, dget_cons, ih]

theorem dget_dset_of_ne (m : List (Nat × β)) (k k' : Nat) (v : β) (h : k' ≠ k) :
    dget (dset m k v) k' = dget m k' := by
  induction m with
  | nil => simp [dset, dget_cons, dget_nil, Ne.symm h]
  | cons p rest ih =>
    by_cases hp : p.1 = k
    · simp [dset, hp, dget_cons, Ne.symm h]
    · simp [dset, hp, dget_cons, ih]

theorem dget_dset_isSome (m : List (Nat × β)) (k k' : Nat) (v : β)
    (h : (dget m k').isSome) : (dget (dset m k v) k').isSome := by
  by_cases hk : k' = k
  · subst hk; simp [dget_dset_self]
  · rwa [dget_dset_of_ne _ _ _ _ hk]

/-! ## C1: `entries_to_ranges_or_baskets` -/

theorem fileBaskets_eq_filter (es et offi : Nat) (bks : List Basket) (gs : Nat) :
    fileBaskets es et offi gs bks =
      ((basketSpans offi gs bks).filter
        (fun s => s.1.1 < s.1.2 && es < s.1.2 && s.1.1 ≤ et)).map
        (fun s => ((s.2.seek, s.2.seek + s.2.bytes), s.1.2 - s.1.1)) := by
  induction bks generalizing gs with
  | nil => rfl
  | cons b rest ih =>
    simp only [fileBaskets, basketSpans, List.filter_cons]
    cases h : (decide (gs < offi + b.stop) && decide (es < offi + b.stop) &&
        decide (gs ≤ et)) with
    | true => simp only [h, if_true, List.map_cons, ih]
    | false => simp only [h, if_false, Bool.false_eq_true, ih]

theorem etrFiles_emitted (offsets : List Nat)
    (sdata : List (Nat × List (String × List Basket))) (nm : String) (es et : Nat)
    (idxs : List Nat) :
    (etrFiles offsets sdata nm es et idxs).map (fun l => l.map (fun r => (r.1, r.2.2))) =
      codeSpanList offsets sdata nm es et idxs := by
  induction idxs with
  | nil => rfl
  | cons i rest ih =>
    simp only [etrFiles, codeSpanList]
    cases ho : offsets.get? i with
    | none => simp [ho]
    | some off =>
      cases hm : dget sdata i with
      | none => simp [ho, hm]
      | some m =>
        cases hb : (m.find? (fun p => p.1 == nm)).map (·.2) with
        | none => simp [ho, hm, hb]
        | some bks =>
          cases ht : etrFiles offsets sdata nm es et rest with
          | none =>
            have hc : codeSpanList offsets sdata nm es et rest = none := by
              rw [← ih, ht]; rfl
            simp [ho, hm, hb, ht, hc]
          | some tail =>
            have hcode : codeSpanList offsets sdata nm es et rest =
                some (tail.map (fun r => (r.1, r.2.2))) := by
              rw [← ih, ht]; rfl
            simp only [ho, hm, hb, ht, hcode, Option.map_some', List.map_append,
              List.map_map]
            rw [fileBaskets_eq_filter]
            simp [List.map_map, Function.comp]

/-- C1 (amended): `entries_to_ranges_or_baskets` emits, in file order then
basket order, one byte range `(seek, seek + bytes)` per basket whose
non-empty global entry span `[global_start, global_stop)` satisfies
`entry_start < global_stop` and `global_start ≤ entry_stop` — i.e. every
basket overlapping `[entry_start, entry_stop)` *and also* a basket whose span
begins exactly at `entry_stop` — recording for each emitted range the file
index it came from; and in the single-basket scenario (one file, branch "x",
one basket with stop=100, seek=500, bytes=40, entries `[0, 100)`) it yields
exactly the range `(500, 540)` attributed to file index 0. -/
theorem entriesToRanges_emits_code_condition (offsets : List Nat)
    (sdata : List (Nat × List (String × List Basket))) (nm : String)
    (istart istop es et : Nat) :
    emittedRanges offsets sdata nm istart istop es et =
      codeSpanList offsets sdata nm es et (List.range' istart (istop - istart)) ∧
    fileIndexRange [0, 100] 0 100 = (0, 1) ∧
    entriesToRangesOrBaskets [0, 100] [(0, [("x", [⟨500, 100, 40⟩])])] "x" 0 1 0 100 =
      some ([(0, (500, 540))], [0], [0, 100]) := by
  refine ⟨?_, by decide, by decide⟩
  unfold emittedRanges
  exact etrFiles_emitted offsets sdata nm es et (List.range' istart (istop - istart))

/-- C1 counterexample: with one file of two baskets spanning `[0, 50)` and
`[50, 100)`, reading entries `[0, 50)` emits TWO byte ranges — the second
basket's span `[50, 100)` does not overlap `[0, 50)` but starts exactly at
`entry_stop = 50` and is emitted anyway — so the output is not "exactly one
range per overlapping basket" as claimed (`claimSpanList` is the claim's
overlap-filtered emission). -/
theorem entriesToRanges_counterexample :
    fileIndexRange [0, 100] 0 50 = (0, 1) ∧
    emittedRanges [0, 100] [(0, [("x", [⟨500, 50, 40⟩, ⟨600, 100, 30⟩])])] "x" 0 1 0 50 =
      some [((500, 540), 0), ((600, 630), 0)] ∧
    claimSpanList [0, 100] [(0, [("x", [⟨500, 50, 40⟩, ⟨600, 100, 30⟩])])] "x" 0 50 [0] =
      some [((500, 540), 0)] ∧
    emittedRanges [0, 100] [(0, [("x", [⟨500, 50, 40⟩, ⟨600, 100, 30⟩])])] "x" 0 1 0 50 ≠
      claimSpanList [0, 100] [(0, [("x", [⟨500, 50, 40⟩, ⟨600, 100, 30⟩])])] "x" 0 50
        (List.range' 0 (1 - 0)) := by
  refine ⟨by decide, by decide, by decide, by decide⟩

/-! ## C2: `_file_index_range` at file boundaries -/

theorem countP_le_sorted (l : List Nat) (hs : l.Pairwise (· < ·)) (i : Nat)
    (hi : i < l.length) :
    l.countP (fun x => decide (x ≤ l.getD i 0)) = i + 1 := by
  induction l generalizing i with
  | nil => simp at hi
  | cons a t ih =>
    rcases List.pairwise_cons.mp hs with ⟨ha, ht⟩
    cases i with
    | zero =>
      rw [List.getD_cons_zero, List.countP_cons_of_pos _ _ (by simp)]
      have hz : t.countP (fun x => decide (x ≤ a)) = 0 :=
        List.countP_eq_zero.mpr (fun x hx => by
          have := ha x hx
          simp only [decide_eq_true_eq]
          omega)
      omega
    | succ n =>
      rw [List.getD_cons_succ]
      have hn : n < t.length := by simpa using hi
      have hmem : t.getD n 0 ∈ t := by
        rw [List.getD_eq_getElem _ _ hn]; exact List.getElem_mem hn
      have han : a ≤ t.getD n 0 := le_of_lt (ha _ hmem)
      rw [List.countP_cons_of_pos _ _ (by simpa using han), ih ht n hn]

theorem getD_le_getLastD_sorted (l : List Nat) (hs : l.Pairwise (· < ·)) {i : Nat}
    (hi : i < l.length) : l.getD i 0 ≤ l.getLastD 0 := by
  have hlen : l.length - 1 < l.length := by omega
  have hlast : l.getLastD 0 = l.getD (l.length - 1) 0 := by
    rw [List.getLastD_eq_getLast?, List.getLast?_eq_getElem?, List.getD_eq_getElem?_getD]
  rw [hlast]
  rcases Nat.lt_or_ge i (l.length - 1) with hlt | hge
  · rw [List.getD_eq_getElem _ _ hi, List.getD_eq_getElem _ _ hlen]
    exact le_of_lt (List.pairwise_iff_getElem.mp hs i (l.length - 1) hi hlen hlt)
  · have : i = l.length - 1 := by omega
    rw [this]

/-- C2: for every valid file position `i`, `_file_index_range` applied to the
boundary pair `(offsets[i], offsets[i+1])` returns exactly `(i, i+1)`: the
right-sided binary search minus one locates the file of `entry_start`, and
since `entry_stop = offsets[i+1]` lands exactly on a file boundary the stop
index receives no `+1` adjustment, so the next file is not included. -/
theorem fileIndexRange_boundaries (offsets : List Nat)
    (hs : offsets.Pairwise (· < ·)) (i : Nat) (h : i + 1 < offsets.length) :
    fileIndexRange offsets (offsets.getD i 0 : Nat) (offsets.getD (i + 1) 0 : Nat) =
      (i, i + 1) := by
  have hi : i < offsets.length := by omega
  have hij : offsets.getD i 0 < offsets.getD (i + 1) 0 := by
    rw [List.getD_eq_getElem _ _ hi, List.getD_eq_getElem _ _ h]
    exact List.pairwise_iff_getElem.mp hs i (i + 1) hi h (by omega)
  have hlastj : offsets.getD (i + 1) 0 ≤ offsets.getLastD 0 :=
    getD_le_getLastD_sorted offsets hs h
  have hlasti : offsets.getD i 0 ≤ offsets.getLastD 0 := le_trans (le_of_lt hij) hlastj
  have hc1 : searchsortedRight offsets ((offsets.getD i 0 : Nat) : Int) = i + 1 := by
    unfold searchsortedRight
    rw [List.countP_congr (q := fun x => decide (x ≤ offsets.getD i 0))
      (fun x _ => by simp)]
    exact countP_le_sorted offsets hs i hi
  have hc2 : searchsortedRight offsets ((offsets.getD (i + 1) 0 : Nat) : Int) = i + 2 := by
    unfold searchsortedRight
    rw [List.countP_congr (q := fun x => decide (x ≤ offsets.getD (i + 1) 0))
      (fun x _ => by simp)]
    rw [countP_le_sorted offsets hs (i + 1) h]
  have he1 : max (0 : Int) (min ((offsets.getLastD 0 : Nat) : Int)
      ((offsets.getD i 0 : Nat) : Int)) = ((offsets.getD i 0 : Nat) : Int) := by
    have : ((offsets.getD i 0 : Nat) : Int) ≤ ((offsets.getLastD 0 : Nat) : Int) := by
      exact_mod_cast hlasti
    omega
  have he2 : max ((offsets.getD i 0 : Nat) : Int)
      (min ((offsets.getLastD 0 : Nat) : Int) ((offsets.getD (i + 1) 0 : Nat) : Int)) =
      ((offsets.getD (i + 1) 0 : Nat) : Int) := by
    have h1 : ((offsets.getD (i + 1) 0 : Nat) : Int) ≤ ((offsets.getLastD 0 : Nat) : Int) := by
      exact_mod_cast hlastj
    have h2 : ((offsets.getD i 0 : Nat) : Int) ≤ ((offsets.getD (i + 1) 0 : Nat) : Int) := by
      exact_mod_cast le_of_lt hij
    omega
  simp only [fileIndexRange, he1, he2]
  rw [if_neg (by exact_mod_cast Nat.ne_of_lt hij)]
  rw [hc1, hc2]
  simp only [Nat.add_sub_cancel]
  rw [if_neg ?_]
  · rfl
  · simp only [ne_eq, Nat.cast_inj, not_not]
    exact_mod_cast rfl

/-- C2 witness: concrete boundary query on `offsets = [0, 100, 250]`, `i = 1`. -/
theorem fileIndexRange_boundaries_witness :
    ([0, 100, 250] : List Nat).Pairwise (· < ·) ∧
    1 + 1 < ([0, 100, 250] : List Nat).length ∧
    fileIndexRange [0, 100, 250] ((([0, 100, 250] : List Nat).getD 1 0 : Nat) : Int)
      ((([0, 100, 250] : List Nat).getD (1 + 1) 0 : Nat) : Int) = (1, 1 + 1) :=
  ⟨by decide, by decide, fileIndexRange_boundaries [0, 100, 250] (by decide) 1 (by decide)⟩

/-! ## C3: entry-offsets invariants of `collect` -/

theorem getLastD_concat (l : List α) (a d : α) : (l ++ [a]).getLastD d = a := by
  rw [List.getLastD_eq_getLast?, List.getLast?_concat]
  rfl

theorem collect_ok_cases (d : Nat) (st : CollectedData) (inp : CollectInput)
    (st' : CollectedData) (h : CollectedData.collect d st inp = .ok st') :
    (inputEntries inp = 0 ∧ st' = st) ∨
    (0 < inputEntries inp ∧
      st'.entry_offsets = st.entry_offsets ++
        [st.entry_offsets.getLastD 0 + inputEntries inp] ∧
      ∃ row, st'.lookup_table = st.lookup_table ++ [row]) := by
  obtain ⟨fn, tn, res⟩ := inp
  cases res with
  | openFail => simp [CollectedData.collect] at h
  | noTree =>
    left
    simp only [CollectedData.collect, Except.ok.injEq] at h
    exact ⟨rfl, h.symm⟩
  | tree t =>
    simp only [CollectedData.collect] at h
    split at h
    · split at h
      · left
        simp only [Except.ok.injEq] at h
        rename_i hz
        simp only [beq_iff_eq] at hz
        exact ⟨by simp [inputEntries, hz], h.symm⟩
      · split at h
        · split at h
          · right
            simp only [Except.ok.injEq] at h
            rename_i hz _ _
            simp only [beq_iff_eq] at hz
            refine ⟨by simp only [inputEntries]; omega, ?_, ?_⟩
            · rw [← h]; rfl
            · exact ⟨_, by rw [← h]⟩
          · exact absurd h (by simp)
        · exact absurd h (by simp)
    · exact absurd h (by simp)

theorem collectFrom_ok (d : Nat) (inputs : List CollectInput) (st st' : CollectedData)
    (h : inputs.foldlM (CollectedData.collect d) st = .ok st') :
    st'.entry_offsets.length =
      st.entry_offsets.length + inputs.countP (fun i => decide (0 < inputEntries i)) ∧
    st'.entry_offsets.getLastD 0 =
      st.entry_offsets.getLastD 0 + (inputs.map inputEntries).sum ∧
    (st.entry_offsets ≠ [] → st'.entry_offsets.head? = st.entry_offsets.head?) ∧
    st'.lookup_table.length =
      st.lookup_table.length + inputs.countP (fun i => decide (0 < inputEntries i)) ∧
    (inputs.filter (fun i => decide (0 < inputEntries i))).foldlM
      (CollectedData.collect d) st = .ok st' := by
  induction inputs generalizing st with
  | nil =>
    simp only [List.foldlM_nil] at h
    cases h
    refine ⟨by simp, by simp, fun _ => rfl, by simp, rfl⟩
  | cons a rest ih =>
    rw [List.foldlM_cons] at h
    cases ha : CollectedData.collect d st a with
    | error e => rw [ha] at h; exact Except.noConfusion h
    | ok s1 =>
      rw [ha] at h
      obtain ⟨hlen, hlast, hhead, hrow, hfil⟩ := ih s1 h
      rcases collect_ok_cases d st a s1 ha with ⟨hz, rfl⟩ | ⟨hp, hoff, row, hrw⟩
      · have hdec : (decide (0 < inputEntries a)) = false := by simp [hz]
        simp only [List.countP_cons, List.map_cons, List.sum_cons, List.filter_cons,
          hdec, Bool.false_eq_true, if_false, hz, Nat.add_zero, Nat.zero_add]
        exact ⟨hlen, hlast, hhead, hrow, hfil⟩
      · have hdec : (decide (0 < inputEntries a)) = true := by simpa using hp
        have hs1len : s1.entry_offsets.length = st.entry_offsets.length + 1 := by
          rw [hoff, List.length_append]; rfl
        have hs1last : s1.entry_offsets.getLastD 0 =
            st.entry_offsets.getLastD 0 + inputEntries a := by
          rw [hoff, getLastD_concat]
        have hs1row : s1.lookup_table.length = st.lookup_table.length + 1 := by
          rw [hrw, List.length_append]; rfl
        simp only [List.countP_cons, List.map_cons, List.sum_cons, List.filter_cons,
          hdec, if_true]
        refine ⟨by omega, by omega, ?_, by omega, ?_⟩
        · intro hne
          rw [hhead (by rw [hoff]; simp), hoff, List.head?_append]
          cases hh : st.entry_offsets.head? with
          | none => exact absurd (List.head?_eq_none_iff.mp hh) hne
          | some x => rfl
        · rw [List.foldlM_cons, ha]
          exact hfil

theorem sum_inputEntries_filter (inputs : List CollectInput) :
    ((inputs.filter (fun i => decide (0 < inputEntries i))).map inputEntries).sum =
      (inputs.map inputEntries).sum := by
  induction inputs with
  | nil => rfl
  | cons a rest ih =>
    by_cases ha : 0 < inputEntries a
    · simp [List.filter_cons, ha, ih]
    · have hz : inputEntries a = 0 := by omega
      simp [List.filter_cons, ha, ih, hz]

/-- C3: after any successful sequence of `collect` calls on one instance, the
entry-offsets sequence starts at 0, its last element is the sum of the entry
counts of the files with entries > 0, and its length is one more than the
number of such files (one lookup row each); zero-entry files add nothing —
filtering them out of the input sequence produces the same final state (so
they consume no offset, row, era or prefix slot). -/
theorem collect_offsets_invariant (d : Nat) (inputs : List CollectInput)
    (st : CollectedData) (h : collectAll d inputs = .ok st) :
    st.entry_offsets.head? = some 0 ∧
    st.entry_offsets.getLastD 0 =
      ((inputs.filter (fun i => decide (0 < inputEntries i))).map inputEntries).sum ∧
    st.entry_offsets.length = 1 + inputs.countP (fun i => decide (0 < inputEntries i)) ∧
    st.lookup_table.length = inputs.countP (fun i => decide (0 < inputEntries i)) ∧
    collectAll d (inputs.filter (fun i => decide (0 < inputEntries i))) = .ok st := by
  obtain ⟨hlen, hlast, hhead, hrow, hfil⟩ :=
    collectFrom_ok d inputs initCollected st h
  refine ⟨?_, ?_, ?_, ?_, hfil⟩
  · rw [hhead (by simp [initCollected])]; rfl
  · rw [hlast, sum_inputEntries_filter]; simp [initCollected]
  · rw [hlen]; simp [initCollected, Nat.add_comm]
  · rw [hrow]; simp [initCollected]

/-- Inputs for the C3 witness: one 100-entry file, one file whose tree is
missing, one empty tree. -/
def c3Inputs : List CollectInput :=
  [⟨"/d/f1", "T", .tree ⟨100, [⟨"x", ⟨"k"⟩, [⟨500, 100, 40⟩]⟩]⟩⟩,
   ⟨"/d/f2", "T", .noTree⟩,
   ⟨"/d/f3", "T", .tree ⟨0, []⟩⟩]

/-- The state the C3 witness run produces. -/
def c3State : CollectedData := (collectAll 1 c3Inputs).toOption.getD initCollected

/-- C3 witness: the invariants evaluated on the concrete three-file run. -/
theorem collect_offsets_invariant_witness :
    collectAll 1 c3Inputs = .ok c3State ∧
    (c3State.entry_offsets.head? = some 0 ∧
     c3State.entry_offsets.getLastD 0 =
       ((c3Inputs.filter (fun i => decide (0 < inputEntries i))).map inputEntries).sum ∧
     c3State.entry_offsets.length =
       1 + c3Inputs.countP (fun i => decide (0 < inputEntries i)) ∧
     c3State.lookup_table.length = c3Inputs.countP (fun i => decide (0 < inputEntries i)) ∧
     collectAll 1 (c3Inputs.filter (fun i => decide (0 < inputEntries i))) = .ok c3State) :=
  ⟨by rfl, collect_offsets_invariant 1 c3Inputs c3State (by rfl)⟩

/-! ## C4: `concatenate` applied to `[A, A]` -/

theorem drop_length_cons (l : List Nat) (x : Nat) :
    (x :: l).drop l.length = [(x :: l).getLastD 0] := by
  induction l generalizing x with
  | nil => rfl
  | cons y ys ih =>
    show (y :: ys).drop ys.length = _
    rw [ih y]
    simp [List.getLastD_cons]

theorem concatStep_init (A : IndexArray) (t : List Nat) (ht : A.offsets = 0 :: t) :
    concatStep { offsets := [0], file := [], era := [], pfx := [] } A =
      { offsets := A.offsets, file := A.file, era := A.era, pfx := A.pfx } := by
  have hmap : (fun (r : FileRow) => { r with era := 0 + r.era, pfx := 0 + r.pfx }) =
      fun r => r := by
    funext r
    simp [Nat.zero_add]
  simp [concatStep, ht, hmap, List.map_id', Nat.zero_add]

/-- C4: `concatenate([A, A])` (for an index array whose offsets start with the
leading 0) has offsets of length `2*len(A.offsets) - 1` whose first half is
`A.offsets` and whose second half is `A.offsets` shifted by `A.offsets[-1]`
(the running prefix-sum concatenation); the file rows are `A`'s rows followed
by `A`'s rows with era/prefix references shifted by `len(A.era)` /
`len(A.prefix)`; the era and prefix tables are concatenated without any
deduplication. -/
theorem concatenate_self (A : IndexArray) (h : A.offsets.head? = some 0) :
    (concatenate [A, A]).offsets.length = 2 * A.offsets.length - 1 ∧
    (concatenate [A, A]).offsets.take A.offsets.length = A.offsets ∧
    (concatenate [A, A]).offsets.drop (A.offsets.length - 1) =
      A.offsets.map (· + A.offsets.getLastD 0) ∧
    (concatenate [A, A]).file =
      A.file ++ A.file.map (fun r =>
        { r with era := A.era.length + r.era, pfx := A.pfx.length + r.pfx }) ∧
    (concatenate [A, A]).era = A.era ++ A.era ∧
    (concatenate [A, A]).pfx = A.pfx ++ A.pfx := by
  obtain ⟨t, ht⟩ : ∃ t, A.offsets = 0 :: t := by
    cases ho : A.offsets with
    | nil => rw [ho] at h; simp at h
    | cons x xs =>
      rw [ho] at h
      simp only [List.head?_cons, Option.some.injEq] at h
      exact ⟨xs, by rw [h]⟩
  have hcc : concatenate [A, A] = concatStep A A := by
    show concatStep (concatStep { offsets := [0], file := [], era := [], pfx := [] } A) A =
      concatStep A A
    rw [concatStep_init A t ht]
  refine ⟨?_, ?_, ?_, ?_, ?_, ?_⟩
  · rw [hcc]
    show (A.offsets ++ (A.offsets.drop 1).map (A.offsets.getLastD 0 + ·)).length = _
    rw [List.length_append, List.length_map, ht]
    simp only [List.length_cons, List.drop_succ_cons, List.drop_zero]
    omega
  · rw [hcc]
    exact List.take_left A.offsets _
  · rw [hcc]
    show (A.offsets ++ (A.offsets.drop 1).map (A.offsets.getLastD 0 + ·)).drop
        (A.offsets.length - 1) = _
    rw [List.drop_append_of_le_length (by rw [ht]; simp)]
    rw [ht]
    simp only [List.length_cons, Nat.add_sub_cancel, List.drop_succ_cons, List.drop_zero]
    rw [drop_length_cons t 0]
    simp [Nat.add_comm, Nat.zero_add]
  · rw [hcc]; rfl
  · rw [hcc]; rfl
  · rw [hcc]; rfl

/-- A concrete two-file index array for the C4 witness. -/
def c4Array : IndexArray :=
  { offsets := [0, 5, 12],
    file := [⟨"f1", [("x", [⟨500, 5, 40⟩])], 0, 0⟩, ⟨"f2", [("x", [⟨700, 7, 30⟩])], 0, 0⟩],
    era := [⟨"T", ["x"], [⟨"k"⟩]⟩],
    pfx := ["/d/"] }

/-- C4 witness: the concatenation facts evaluated on a concrete array. -/
theorem concatenate_self_witness :
    c4Array.offsets.head? = some 0 ∧
    ((concatenate [c4Array, c4Array]).offsets.length = 2 * c4Array.offsets.length - 1 ∧
     (concatenate [c4Array, c4Array]).offsets.take c4Array.offsets.length = c4Array.offsets ∧
     (concatenate [c4Array, c4Array]).offsets.drop (c4Array.offsets.length - 1) =
       c4Array.offsets.map (· + c4Array.offsets.getLastD 0) ∧
     (concatenate [c4Array, c4Array]).file =
       c4Array.file ++ c4Array.file.map (fun r =>
         { r with era := c4Array.era.length + r.era, pfx := c4Array.pfx.length + r.pfx }) ∧
     (concatenate [c4Array, c4Array]).era = c4Array.era ++ c4Array.era ∧
     (concatenate [c4Array, c4Array]).pfx = c4Array.pfx ++ c4Array.pfx) :=
  ⟨by rfl, concatenate_self c4Array (by rfl)⟩

/-! ## C5: era deduplication is branch-order-insensitive -/

theorem lexLe_total (a b : List Char) : lexLe a b = true ∨ lexLe b a = true := by
  induction a generalizing b with
  | nil => left; rfl
  | cons x xs ih =>
    cases b with
    | nil => right; rfl
    | cons y ys =>
      rcases lt_trichotomy x y with hlt | heq | hgt
      · left; simp [lexLe, hlt]
      · subst heq
        rcases ih ys with h | h
        · left; simp [lexLe, lt_irrefl, h]
        · right; simp [lexLe, lt_irrefl, h]
      · right; simp [lexLe, hgt]

theorem lexLe_trans {a b c : List Char} (h1 : lexLe a b = true)
    (h2 : lexLe b c = true) : lexLe a c = true := by
  induction a generalizing b c with
  | nil => rfl
  | cons x xs ih =>
    cases b with
    | nil => simp [lexLe] at h1
    | cons y ys =>
      cases c with
      | nil => simp [lexLe] at h2
      | cons z zs =>
        rcases lt_trichotomy x y with hxy | rfl | hxy
        · rcases lt_trichotomy y z with hyz | rfl | hyz
          · have hxz : x < z := lt_trans hxy hyz
            simp [lexLe, hxz]
          · simp [lexLe, hxy]
          · simp [lexLe, hyz, lt_asymm hyz] at h2
        · simp only [lexLe, lt_irrefl, if_false] at h1
          rcases lt_trichotomy x z with hxz | rfl | hxz
          · simp [lexLe, hxz]
          · simp only [lexLe, lt_irrefl, if_false] at h2 ⊢
            exact ih h1 h2
          · simp [lexLe, hxz, lt_asymm hxz] at h2
        · simp [lexLe, hxy, lt_asymm hxy] at h1

theorem lexLe_antisymm {a b : List Char} (h1 : lexLe a b = true)
    (h2 : lexLe b a = true) : a = b := by
  induction a generalizing b with
  | nil =>
    cases b with
    | nil => rfl
    | cons y ys => simp [lexLe] at h2
  | cons x xs ih =>
    cases b with
    | nil => simp [lexLe] at h1
    | cons y ys =>
      rcases lt_trichotomy x y with hxy | rfl | hxy
      · simp [lexLe, hxy, lt_asymm hxy] at h2
      · simp only [lexLe, lt_irrefl, if_false] at h1 h2
        rw [ih h1 h2]
      · simp [lexLe, hxy, lt_asymm hxy] at h1

theorem insortBy_perm (le : α → α → Bool) (x : α) (l : List α) :
    (insortBy le x l).Perm (x :: l) := by
  induction l with
  | nil => exact List.Perm.refl _
  | cons y ys ih =>
    simp only [insortBy]
    split
    · exact (List.Perm.cons y ih).trans (List.Perm.swap x y ys)
    · exact List.Perm.refl _

theorem pySorted_perm (le : α → α → Bool) (l : List α) : (pySorted le l).Perm l := by
  suffices h : ∀ acc : List α,
      (l.foldl (fun acc x => insortBy le x acc) acc).Perm (acc ++ l) by
    simpa using h []
  induction l with
  | nil => intro acc; simp
  | cons x xs ih =>
    intro acc
    simp only [List.foldl_cons]
    exact (ih _).trans
      (((insortBy_perm le x acc).append_right xs).trans List.perm_middle.symm)

theorem insortBy_sorted (le : α → α → Bool)
    (htrans : ∀ a b c, le a b = true → le b c = true → le a c = true)
    (htot : ∀ a b, le a b = true ∨ le b a = true) (x : α) (l : List α)
    (hl : l.Pairwise (fun a b => le a b = true)) :
    (insortBy le x l).Pairwise (fun a b => le a b = true) := by
  induction l with
  | nil => simp [insortBy]
  | cons y ys ih =>
    rcases List.pairwise_cons.mp hl with ⟨hy, hys⟩
    simp only [insortBy]
    split
    · rename_i hle
      refine List.pairwise_cons.mpr ⟨?_, ih hys⟩
      intro b hb
      have hb' : b ∈ x :: ys := (insortBy_perm le x ys).mem_iff.mp hb
      rcases List.mem_cons.mp hb' with rfl | hbys
      · exact hle
      · exact hy b hbys
    · rename_i hle
      have hxy : le x y = true := by
        rcases htot x y with h | h
        · exact h
        · exact absurd h hle
      refine List.pairwise_cons.mpr ⟨?_, hl⟩
      intro b hb
      rcases List.mem_cons.mp hb with rfl | hbys
      · exact hxy
      · exact htrans x y b hxy (hy b hbys)

theorem pySorted_sorted (le : α → α → Bool)
    (htrans : ∀ a b c, le a b = true → le b c = true → le a c = true)
    (htot : ∀ a b, le a b = true ∨ le b a = true) (l : List α) :
    (pySorted le l).Pairwise (fun a b => le a b = true) := by
  suffices h : ∀ acc : List α, acc.Pairwise (fun a b => le a b = true) →
      (l.foldl (fun acc x => insortBy le x acc) acc).Pairwise
        (fun a b => le a b = true) by
    exact h [] (by simp)
  induction l with
  | nil => intro acc hacc; simpa
  | cons x xs ih =>
    intro acc hacc
    simp only [List.foldl_cons]
    exact ih _ (insortBy_sorted le htrans htot x acc hacc)

theorem sorted_perm_eq_of_nodup_key {α : Type} (f : α → List Char) (l₁ l₂ : List α)
    (h₁ : l₁.Pairwise (fun a b => lexLe (f a) (f b) = true))
    (h₂ : l₂.Pairwise (fun a b => lexLe (f a) (f b) = true))
    (hp : l₁.Perm l₂) (hn : (l₁.map f).Nodup) : l₁ = l₂ := by
  induction l₁ generalizing l₂ with
  | nil => exact hp.nil_eq
  | cons a t₁ ih =>
    cases l₂ with
    | nil => exact absurd hp.symm.nil_eq (by simp)
    | cons b t₂ =>
      have hab : a = b := by
        by_contra hne
        have hamem : a ∈ b :: t₂ := hp.mem_iff.mp (List.mem_cons_self a t₁)
        have hat2 : a ∈ t₂ := by
          rcases List.mem_cons.mp hamem with h | h
          · exact absurd h hne
          · exact h
        have hbmem : b ∈ a :: t₁ := hp.symm.mem_iff.mp (List.mem_cons_self b t₂)
        have hbt1 : b ∈ t₁ := by
          rcases List.mem_cons.mp hbmem with h | h
          · exact absurd h.symm hne
          · exact h
        have hle1 : lexLe (f a) (f b) = true := (List.pairwise_cons.mp h₁).1 b hbt1
        have hle2 : lexLe (f b) (f a) = true := (List.pairwise_cons.mp h₂).1 a hat2
        have hkeys : f a = f b := lexLe_antisymm hle1 hle2
        have hmem : f a ∈ t₁.map f := by
          rw [hkeys]; exact List.mem_map_of_mem _ hbt1
        have hnd : f a ∉ t₁.map f := by
          simp only [List.map_cons, List.nodup_cons] at hn
          exact hn.1
        exact hnd hmem
      subst hab
      have hp' : t₁.Perm t₂ := hp.cons_inv
      have hn' : (t₁.map f).Nodup := by
        simp only [List.map_cons, List.nodup_cons] at hn
        exact hn.2
      rw [ih t₂ (List.pairwise_cons.mp h₁).2 (List.pairwise_cons.mp h₂).2 hp' hn']

theorem insortBy_map (f : α → β) (le : β → β → Bool) (x : α) (l : List α) :
    (insortBy (fun a b => le (f a) (f b)) x l).map f = insortBy le (f x) (l.map f) := by
  induction l with
  | nil => rfl
  | cons y ys ih =>
    show (if le (f y) (f x) then y :: insortBy (fun a b => le (f a) (f b)) x ys
          else x :: y :: ys).map f =
        if le (f y) (f x) then f y :: insortBy le (f x) (ys.map f)
          else f x :: f y :: ys.map f
    by_cases h : le (f y) (f x) = true
    · rw [if_pos h, if_pos h, List.map_cons, ih]
    · rw [if_neg h, if_neg h]
      rfl

theorem pySorted_map (f : α → β) (le : β → β → Bool) (l : List α) :
    (pySorted (fun a b => le (f a) (f b)) l).map f = pySorted le (l.map f) := by
  suffices h : ∀ acc : List α,
      (l.foldl (fun acc x => insortBy (fun a b => le (f a) (f b)) x acc) acc).map f =
        (l.map f).foldl (fun acc x => insortBy le x acc) (acc.map f) by
    exact h []
  induction l with
  | nil => intro acc; rfl
  | cons x xs ih =>
    intro acc
    simp only [List.foldl_cons, List.map_cons]
    rw [ih, insortBy_map]

/-- If the second file has the same multiset of (branch name, cache-key)
pairs as the first (whose branch names are distinct), both files produce the
same era key. -/
theorem eraKey_pairs_perm (tn : String) (b₁ b₂ : List BranchIn)
    (hp : (b₂.map (fun b => (b.name, b.interp.cacheKey))).Perm
          (b₁.map (fun b => (b.name, b.interp.cacheKey))))
    (hn : (b₁.map (·.name)).Nodup) : eraKey tn b₂ = eraKey tn b₁ := by
  have htrans : ∀ a b c : String × String, lexLe a.1.data b.1.data = true →
      lexLe b.1.data c.1.data = true → lexLe a.1.data c.1.data = true :=
    fun _ _ _ h1 h2 => lexLe_trans h1 h2
  have htot : ∀ a b : String × String,
      lexLe a.1.data b.1.data = true ∨ lexLe b.1.data a.1.data = true :=
    fun a b => lexLe_total a.1.data b.1.data
  have hdata : Function.Injective String.data := fun _ _ h => String.ext h
  have hnpairs : ((b₁.map (fun b => (b.name, b.interp.cacheKey))).map
      (fun p => p.1.data)).Nodup := by
    have h1 : (b₁.map (fun b => b.name.data)).Nodup := by
      simpa [List.map_map, Function.comp] using List.Nodup.map hdata hn
    simpa [List.map_map, Function.comp] using h1
  have hperm : (pySorted (fun p q : String × String => lexLe p.1.data q.1.data)
        (b₂.map (fun b => (b.name, b.interp.cacheKey)))).Perm
      (pySorted (fun p q : String × String => lexLe p.1.data q.1.data)
        (b₁.map (fun b => (b.name, b.interp.cacheKey)))) :=
    ((pySorted_perm _ _).trans hp).trans (pySorted_perm _ _).symm
  have hn₂ : ((pySorted (fun p q : String × String => lexLe p.1.data q.1.data)
      (b₂.map (fun b => (b.name, b.interp.cacheKey)))).map (fun p => p.1.data)).Nodup := by
    refine (List.Perm.nodup_iff ?_).mpr hnpairs
    exact List.Perm.map _ ((pySorted_perm _ _).trans hp)
  have heq : pySorted (fun p q : String × String => lexLe p.1.data q.1.data)
        (b₂.map (fun b => (b.name, b.interp.cacheKey))) =
      pySorted (fun p q : String × String => lexLe p.1.data q.1.data)
        (b₁.map (fun b => (b.name, b.interp.cacheKey))) :=
    sorted_perm_eq_of_nodup_key (fun p => p.1.data) _ _
      (pySorted_sorted _ htrans htot _) (pySorted_sorted _ htrans htot _) hperm hn₂
  have hline : ∀ l : List BranchIn,
      (pySorted (fun a b => lexLe a.name.data b.name.data) l).map
        (fun b => b.name ++ "\t" ++ b.interp.cacheKey) =
      (pySorted (fun p q : String × String => lexLe p.1.data q.1.data)
        (l.map (fun b => (b.name, b.interp.cacheKey)))).map
        (fun p => p.1 ++ "\t" ++ p.2) := by
    intro l
    rw [← pySorted_map (fun b => (b.name, b.interp.cacheKey))
      (fun p q => lexLe p.1.data q.1.data) l, List.map_map]
    rfl
  unfold eraKey
  rw [hline, hline, heq]

theorem collect_era_fresh (d : Nat) (st : CollectedData) (fn tn : String)
    (t : TreeInput) (st' : CollectedData)
    (h : CollectedData.collect d st ⟨fn, tn, .tree t⟩ = .ok st')
    (hfresh : st.eras.find? (fun p => p.1 == eraKey tn t.branches) = none)
    (hnz : t.numEntries ≠ 0) :
    st'.eras = st.eras ++ [(eraKey tn t.branches,
      ⟨st.eras.length, tn, t.branches.map (·.name), t.branches.map (·.interp)⟩)] ∧
    (st'.lookup_table.getLastD ⟨"", [], 0, 0⟩).era = st.eras.length := by
  simp only [CollectedData.collect, hfresh] at h
  split at h
  · split at h
    · rename_i hz
      simp only [beq_iff_eq] at hz
      exact absurd hz hnz
    · split at h
      · split at h
        · simp only [Except.ok.injEq] at h
          subst h
          exact ⟨rfl, by rw [getLastD_concat]⟩
        · exact absurd h (by simp)
      · exact absurd h (by simp)
  · exact absurd h (by simp)

theorem collect_era_existing (d : Nat) (st : CollectedData) (fn tn : String)
    (t : TreeInput) (st' : CollectedData) (k : String) (er : EraRec)
    (h : CollectedData.collect d st ⟨fn, tn, .tree t⟩ = .ok st')
    (hfound : st.eras.find? (fun p => p.1 == eraKey tn t.branches) = some (k, er))
    (hnz : t.numEntries ≠ 0) :
    st'.eras = st.eras ∧
    (st'.lookup_table.getLastD ⟨"", [], 0, 0⟩).era = er.index := by
  simp only [CollectedData.collect, hfound] at h
  split at h
  · split at h
    · rename_i hz
      simp only [beq_iff_eq] at hz
      exact absurd hz hnz
    · split at h
      · split at h
        · simp only [Except.ok.injEq] at h
          subst h
          exact ⟨rfl, by rw [getLastD_concat]⟩
        · exact absurd h (by simp)
      · exact absurd h (by simp)
  · exact absurd h (by simp)

/-- C5: two `collect` calls whose files share the tree name and the same
multiset of (branch name, interpretation cache-key) pairs — in any branch
order; the first file's branch names are distinct — are assigned the same
era index (the era key sorts branches by name before joining); the
era record stores the names/interpretations in the first file's branch
order; the new era's index is the number of eras existing before it
(dense ids in first-seen order), and the second call adds no era. -/
theorem era_dedup_order_insensitive (d : Nat) (st0 st1 st2 : CollectedData)
    (fn1 fn2 tn : String) (n1 n2 : Nat) (b₁ b₂ : List BranchIn)
    (hfresh : st0.eras.find? (fun p => p.1 == eraKey tn b₁) = none)
    (h1 : CollectedData.collect d st0 ⟨fn1, tn, .tree ⟨n1, b₁⟩⟩ = .ok st1)
    (h2 : CollectedData.collect d st1 ⟨fn2, tn, .tree ⟨n2, b₂⟩⟩ = .ok st2)
    (hn1 : n1 ≠ 0) (hn2 : n2 ≠ 0)
    (hperm : (b₂.map (fun b => (b.name, b.interp.cacheKey))).Perm
      (b₁.map (fun b => (b.name, b.interp.cacheKey))))
    (hnodup : (b₁.map (·.name)).Nodup) :
    st1.eras = st0.eras ++ [(eraKey tn b₁,
      ⟨st0.eras.length, tn, b₁.map (·.name), b₁.map (·.interp)⟩)] ∧
    st2.eras = st1.eras ∧
    (st1.lookup_table.getLastD ⟨"", [], 0, 0⟩).era = st0.eras.length ∧
    (st2.lookup_table.getLastD ⟨"", [], 0, 0⟩).era = st0.eras.length := by
  obtain ⟨he1, hr1⟩ := collect_era_fresh d st0 fn1 tn ⟨n1, b₁⟩ st1 h1 hfresh hn1
  have hkey : eraKey tn b₂ = eraKey tn b₁ := eraKey_pairs_perm tn b₁ b₂ hperm hnodup
  have hfound : st1.eras.find? (fun p => p.1 == eraKey tn b₂) =
      some (eraKey tn b₁,
        ⟨st0.eras.length, tn, b₁.map (·.name), b₁.map (·.interp)⟩) := by
    rw [he1, hkey, List.find?_append, hfresh]
    simp [List.find?]
  obtain ⟨he2, hr2⟩ := collect_era_existing d st1 fn2 tn ⟨n2, b₂⟩ st2 _ _ h2 hfound hn2
  exact ⟨he1, he2, hr1, hr2⟩

/-- First file's branches for the C5 witness (5 entries). -/
def c5b1 : List BranchIn := [⟨"b", ⟨"kb"⟩, [⟨20, 5, 4⟩]⟩, ⟨"a", ⟨"ka"⟩, [⟨10, 5, 3⟩]⟩]

/-- Second file's branches: same (name, cache-key) pairs in the opposite
order, different basket layout (7 entries). -/
def c5b2 : List BranchIn := [⟨"a", ⟨"ka"⟩, [⟨30, 7, 3⟩]⟩, ⟨"b", ⟨"kb"⟩, [⟨40, 7, 4⟩]⟩]

/-- State after collecting the first C5 witness file. -/
def c5st1 : CollectedData :=
  (CollectedData.collect 1 initCollected
    ⟨"/d/f1", "T", .tree ⟨5, c5b1⟩⟩).toOption.getD initCollected

/-- State after collecting both C5 witness files. -/
def c5st2 : CollectedData :=
  (CollectedData.collect 1 c5st1
    ⟨"/d/f2", "T", .tree ⟨7, c5b2⟩⟩).toOption.getD initCollected

/-- C5 witness: the era facts evaluated on the two concrete permuted files. -/
theorem era_dedup_order_insensitive_witness :
    initCollected.eras.find? (fun p => p.1 == eraKey "T" c5b1) = none ∧
    (c5b2.map (fun b => (b.name, b.interp.cacheKey))).Perm
      (c5b1.map (fun b => (b.name, b.interp.cacheKey))) ∧
    (c5b1.map (·.name)).Nodup ∧
    (c5st1.eras = initCollected.eras ++ [(eraKey "T" c5b1,
        ⟨initCollected.eras.length, "T", c5b1.map (·.name), c5b1.map (·.interp)⟩)] ∧
     c5st2.eras = c5st1.eras ∧
     (c5st1.lookup_table.getLastD ⟨"", [], 0, 0⟩).era = initCollected.eras.length ∧
     (c5st2.lookup_table.getLastD ⟨"", [], 0, 0⟩).era = initCollected.eras.length) :=
  ⟨by rfl, by decide, by decide,
   era_dedup_order_insensitive 1 initCollected c5st1 c5st2 "/d/f1" "/d/f2" "T" 5 7
     c5b1 c5b2 (by rfl) (by rfl) (by rfl) (by decide) (by decide) (by decide)
     (by decide)⟩

/-! ## C6: cross-file interpretation consistency -/

theorem interpGo_agree_append (st : TUState) (nm : String) (c : Interp)
    (l₁ l₂ : List Nat)
    (h : ∀ i ∈ l₁, ∃ it, interpLookup st nm i = some it ∧ it.cacheKey = c.cacheKey) :
    interpGo st nm (some c) (l₁ ++ l₂) = interpGo st nm (some c) l₂ := by
  induction l₁ with
  | nil => rfl
  | cons i rest ih =>
    obtain ⟨it, hit, hk⟩ := h i (List.mem_cons_self i rest)
    simp only [List.cons_append, interpGo, hit, hk, beq_self_eq_true, if_true]
    exact ih (fun i hi => h i (List.mem_cons_of_mem _ hi))

/-- C6: resolving a branch's interpretation over the file-index range
`[istart, istop)` either (a) returns the first file's interpretation when all
files in the range agree on its cache key, or (b), at the first file `j`
whose cache key differs from the first file's, raises the `TypeError` whose
message names the branch, the full path of file `j`, and the suggested
`entry_stop = offsets[j]` (the global boundary at which file `j` begins). -/
theorem interpretation_consistency (st : TUState) (nm : String)
    (istart istop j : Nat) (c c2 : Interp) (fn : String) (off : Nat) :
    (istart < istop →
      interpLookup st nm istart = some c →
      (∀ i ∈ List.range' istart (istop - istart),
        ∃ it, interpLookup st nm i = some it ∧ it.cacheKey = c.cacheKey) →
      interpretationResolve st nm istart istop = .ok (some c)) ∧
    (istart ≤ j → j < istop →
      interpLookup st nm istart = some c →
      (∀ i ∈ List.range' istart (j - istart),
        ∃ it, interpLookup st nm i = some it ∧ it.cacheKey = c.cacheKey) →
      interpLookup st nm j = some c2 → c2.cacheKey ≠ c.cacheKey →
      dget st.filenames j = some fn → st.offsets.get? j = some off →
      interpretationResolve st nm istart istop =
        .error (.typeError (interpMsg nm fn off))) := by
  constructor
  · intro hlt h0 hall
    unfold interpretationResolve
    have hm : istop - istart = (istop - istart - 1) + 1 := by omega
    rw [hm, List.range'_succ]
    simp only [interpGo, h0]
    have hrest := interpGo_agree_append st nm c
      (List.range' (istart + 1) (istop - istart - 1)) [] ?_
    · rw [List.append_nil] at hrest
      rw [hrest]
      rfl
    · intro i hi
      refine hall i ?_
      rw [List.mem_range'_1] at hi ⊢
      omega
  · intro hj1 hj2 h0 hpre hj hne hfn hoff
    rcases Nat.eq_or_lt_of_le hj1 with heq | hlt
    · subst heq
      rw [h0] at hj
      have hc : c = c2 := Option.some.inj hj
      exact absurd (by rw [hc]) hne
    · have hsplit : List.range' istart (j - istart) ++ List.range' j (istop - j) =
          List.range' istart (istop - istart) := by
        have h := List.range'_append istart (j - istart) (istop - j) 1
        have e1 : istart + 1 * (j - istart) = j := by omega
        have e2 : istop - j + (j - istart) = istop - istart := by omega
        rw [e1, e2] at h
        exact h
      unfold interpretationResolve
      rw [← hsplit]
      have hm : j - istart = (j - istart - 1) + 1 := by omega
      rw [hm, List.range'_succ]
      simp only [List.cons_append, interpGo, h0]
      simp only [List.append_eq]
      rw [interpGo_agree_append st nm c (List.range' (istart + 1) (j - istart - 1)) _ ?_]
      · have hm2 : istop - j = (istop - j - 1) + 1 := by omega
        rw [hm2, List.range'_succ]
        simp only [interpGo, hj]
        rw [if_neg (by simp only [beq_iff_eq]; exact fun h => hne h.symm)]
        simp only [hfn, hoff]
      · intro i hi
        refine hpre i ?_
        rw [List.mem_range'_1] at hi ⊢
        omega

/-- C6 witness state where both files agree on branch "x". -/
def c6stAgree : TUState :=
  ⟨[0, 5, 12], [], [(0, "/d/f1"), (1, "/d/f2")], [(0, 0), (1, 0)], [(0, "T")],
   [(0, [("x", ⟨"k"⟩)])], []⟩

/-- C6 witness state where file 1 disagrees with file 0 on branch "x". -/
def c6stDisagree : TUState :=
  ⟨[0, 5, 12], [], [(0, "/d/f1"), (1, "/d/f2")], [(0, 0), (1, 1)], [(0, "T"), (1, "T")],
   [(0, [("x", ⟨"k1"⟩)]), (1, [("x", ⟨"k2"⟩)])], []⟩

/-- C6 witness: agreement returns the shared interpretation; disagreement
raises the documented message with the offending file and boundary. -/
theorem interpretation_consistency_witness :
    interpretationResolve c6stAgree "x" 0 2 = .ok (some ⟨"k"⟩) ∧
    interpretationResolve c6stDisagree "x" 0 2 =
      .error (.typeError (interpMsg "x" "/d/f2" 5)) :=
  ⟨(interpretation_consistency c6stAgree "x" 0 2 0 ⟨"k"⟩ ⟨"k"⟩ "" 0).1
     (by decide) (by rfl)
     (by
       intro i hi
       rw [List.mem_range'_1] at hi
       obtain ⟨h1, h2⟩ := hi
       interval_cases i <;> exact ⟨⟨"k"⟩, rfl, rfl⟩),
   (interpretation_consistency c6stDisagree "x" 0 2 1 ⟨"k1"⟩ ⟨"k2"⟩ "/d/f2" 5).2
     (by decide) (by decide) (by rfl)
     (by
       intro i hi
       rw [List.mem_range'_1] at hi
       obtain ⟨h1, h2⟩ := hi
       interval_cases i
       exact ⟨⟨"k1"⟩, rfl, rfl⟩)
     (by rfl) (by decide) (by rfl) (by rfl)⟩

/-! ## C7: prefix/suffix path reconstruction -/

theorem splitSlash_ne_nil (l : List Char) : splitSlash l ≠ [] := by
  cases l with
  | nil => simp [splitSlash]
  | cons c rest =>
    simp only [splitSlash]
    cases h : splitSlash rest with
    | nil => simp
    | cons p ps => by_cases hc : c = '/' <;> simp [hc]

theorem joinSlash_splitSlash (l : List Char) : joinSlash (splitSlash l) = l := by
  induction l with
  | nil => rfl
  | cons c rest ih =>
    simp only [splitSlash]
    cases h : splitSlash rest with
    | nil => exact absurd h (splitSlash_ne_nil rest)
    | cons p ps =>
      rw [h] at ih
      show joinSlash (if c = '/' then [] :: p :: ps else (c :: p) :: ps) = c :: rest
      by_cases hc : c = '/'
      · rw [if_pos hc, hc]
        show '/' :: joinSlash (p :: ps) = '/' :: rest
        rw [ih]
      · rw [if_neg hc]
        cases ps with
        | nil =>
          simp only [joinSlash] at ih ⊢
          rw [ih]
        | cons q qs =>
          simp only [joinSlash] at ih ⊢
          rw [List.cons_append, ih]

theorem joinSlash_append (l₁ l₂ : List (List Char)) (h₁ : l₁ ≠ []) (h₂ : l₂ ≠ []) :
    joinSlash (l₁ ++ l₂) = joinSlash l₁ ++ '/' :: joinSlash l₂ := by
  induction l₁ with
  | nil => exact absurd rfl h₁
  | cons a t ih =>
    cases t with
    | nil =>
      cases l₂ with
      | nil => exact absurd rfl h₂
      | cons b bs => rfl
    | cons x xs =>
      have hne : (x :: xs : List (List Char)) ≠ [] := by simp
      show a ++ '/' :: joinSlash ((x :: xs) ++ l₂) =
        (a ++ '/' :: joinSlash (x :: xs)) ++ '/' :: joinSlash l₂
      rw [ih hne]
      simp [List.append_assoc]

/-- The `filenames` cache after one row of the `_fetch_filedata` loop: the
absolute filename recorded at index `i` is prefix + suffix, the prefix
coming from the prefix cache, or from the store when not cached. -/
theorem fetchOneRow_filenames (store : IndexArray) (i : Nat) (row : FileRow)
    (st : TUState) :
    (fetchOneRow store i row st).1.filenames =
      dset st.filenames i
        ((dget st.pfxCache row.pfx).getD (store.pfx.getD row.pfx "") ++ row.filename) := by
  simp only [fetchOneRow]
  by_cases h1 : (dget st.treenames row.era).isSome
  · rw [if_pos h1]
    cases hp : dget st.pfxCache row.pfx with
    | none => simp [hp]
    | some p => simp [hp]
  · rw [if_neg h1]
    cases hp : dget st.pfxCache row.pfx with
    | none => simp [hp]
    | some p => simp [hp]

/-- C7 (amended): for a collected path with STRICTLY more than `prefix_depth`
separator-delimited components, the stored prefix concatenated with the
stored suffix reconstructs the original path exactly; and `_fetch_filedata`
computes each cached absolute filename as exactly prefix + suffix (the
prefix string taken from the prefix cache, or fetched from the store when
not cached). -/
theorem path_reconstruction (d : Nat) (fn : String) (store : IndexArray)
    (row : FileRow) (st : TUState) (i : Nat) :
    (1 ≤ d → d < (splitSlash fn.data).length →
      pathPfx d fn ++ pathSuffix d fn = fn) ∧
    dget (fetchOneRow store i row st).1.filenames i =
      some ((dget st.pfxCache row.pfx).getD (store.pfx.getD row.pfx "") ++ row.filename) := by
  constructor
  · intro hd hlen
    unfold pathPfx pathSuffix
    apply String.ext
    rw [String.data_append]
    show (joinSlash ((splitSlash fn.data).take ((splitSlash fn.data).length - d)) ++
          ['/']) ++
        joinSlash ((splitSlash fn.data).drop ((splitSlash fn.data).length - d)) =
      fn.data
    have htake : (splitSlash fn.data).take ((splitSlash fn.data).length - d) ≠ [] := by
      have : 0 < ((splitSlash fn.data).take ((splitSlash fn.data).length - d)).length := by
        rw [List.length_take]
        omega
      exact List.ne_nil_of_length_pos this
    have hdrop : (splitSlash fn.data).drop ((splitSlash fn.data).length - d) ≠ [] := by
      have : 0 < ((splitSlash fn.data).drop ((splitSlash fn.data).length - d)).length := by
        rw [List.length_drop]
        omega
      exact List.ne_nil_of_length_pos this
    rw [List.append_assoc, List.singleton_append, ← joinSlash_append _ _ htake hdrop,
      List.take_append_drop, joinSlash_splitSlash]
  · rw [fetchOneRow_filenames, dget_dset_self]

/-- C7 counterexample: a path with exactly `prefix_depth` components — which
satisfies the collector's `len(split) >= prefix_depth` assertion — does NOT
reconstruct: for `prefix_depth = 1` and path `"a"`, the stored prefix is
`"/"` and prefix + suffix = `"/a" ≠ "a"`. -/
theorem path_counterexample :
    1 ≤ (splitSlash ("a" : String).data).length ∧
    pathPfx 1 "a" = "/" ∧ pathSuffix 1 "a" = "a" ∧
    pathPfx 1 "a" ++ pathSuffix 1 "a" ≠ "a" := by
  refine ⟨by decide, by decide, by decide, by decide⟩

/-- C7 witness: a two-component path with depth 1 reconstructs, and a
concrete `_fetch_filedata` row caches prefix + suffix. -/
theorem path_reconstruction_witness :
    (1 ≤ 1 ∧ 1 < (splitSlash ("d/f.root" : String).data).length ∧
      pathPfx 1 "d/f.root" ++ pathSuffix 1 "d/f.root" = "d/f.root") ∧
    dget (fetchOneRow ⟨[0, 5], [⟨"f1", [], 0, 0⟩], [⟨"T", ["x"], [⟨"k"⟩]⟩], ["/d/"]⟩
        0 ⟨"f1", [], 0, 0⟩ (initTU ⟨[0, 5], [⟨"f1", [], 0, 0⟩],
          [⟨"T", ["x"], [⟨"k"⟩]⟩], ["/d/"]⟩)).1.filenames 0 =
      some ((dget (initTU ⟨[0, 5], [⟨"f1", [], 0, 0⟩], [⟨"T", ["x"], [⟨"k"⟩]⟩],
          ["/d/"]⟩).pfxCache 0).getD
        ((⟨[0, 5], [⟨"f1", [], 0, 0⟩], [⟨"T", ["x"], [⟨"k"⟩]⟩],
          ["/d/"]⟩ : IndexArray).pfx.getD 0 "") ++ "f1") :=
  ⟨⟨by decide, by decide,
    (path_reconstruction 1 "d/f.root" ⟨[], [], [], []⟩ ⟨"", [], 0, 0⟩
      (initTU ⟨[], [], [], []⟩) 0).1 (by decide) (by decide)⟩,
   (path_reconstruction 1 "x" ⟨[0, 5], [⟨"f1", [], 0, 0⟩], [⟨"T", ["x"], [⟨"k"⟩]⟩],
      ["/d/"]⟩ ⟨"f1", [], 0, 0⟩ (initTU ⟨[0, 5], [⟨"f1", [], 0, 0⟩],
      [⟨"T", ["x"], [⟨"k"⟩]⟩], ["/d/"]⟩) 0).2⟩

/-! ## C8: failure handling in `collect` -/

/-- C8 counterexample: a file that cannot be opened makes `collect` raise —
`uproot.open` sits OUTSIDE the `try`/`except`, so the claim's "no error
propagates to the caller" is false for open failures. -/
theorem collect_open_failure_counterexample :
    CollectedData.collect 1 initCollected ⟨"f", "T", .openFail⟩ =
      .error .openError := by rfl

/-- C8 (amended): `collect` treats a file whose named tree is absent (the
`file[treename]` lookup raises, caught by the bare `except`) — or whose tree
reports zero entries — as contributing zero entries: the state is unchanged,
no row/era/prefix/offset is recorded and no error propagates; a failure of
`uproot.open` itself, however, propagates to the caller. -/
theorem collect_tree_failures (d : Nat) (st : CollectedData) (fn tn : String)
    (t : TreeInput) :
    CollectedData.collect d st ⟨fn, tn, .noTree⟩ = .ok st ∧
    (t.numEntries = 0 → CollectedData.collect d st ⟨fn, tn, .tree t⟩ = .ok st) := by
  constructor
  · rfl
  · intro hz
    simp [CollectedData.collect, hz, basketsOk]

/-- C8 witness: the no-tree and zero-entry cases evaluated concretely. -/
theorem collect_tree_failures_witness :
    CollectedData.collect 1 initCollected ⟨"f", "T", .noTree⟩ = .ok initCollected ∧
    CollectedData.collect 1 initCollected ⟨"f", "T", .tree ⟨0, []⟩⟩ = .ok initCollected :=
  ⟨(collect_tree_failures 1 initCollected "f" "T" ⟨0, []⟩).1,
   (collect_tree_failures 1 initCollected "f" "T" ⟨0, []⟩).2 rfl⟩

/-! ## C9: `keys()` / `items()` across eras -/

theorem keysFun_eq_flat (eras : List Era) :
    keysFun eras = firstSeenDedup (eras.flatMap (·.names)) := by
  suffices h : ∀ acc : List String,
      eras.foldl (fun acc e => e.names.foldl seenAdd acc) acc =
        (eras.flatMap (·.names)).foldl seenAdd acc by
    exact h []
  induction eras with
  | nil => intro acc; rfl
  | cons e rest ih =>
    intro acc
    simp only [List.foldl_cons, List.flatMap_cons, List.foldl_append]
    exact ih _

theorem itemsFun_eq_flat (eras : List Era) :
    itemsFun eras =
      (eras.flatMap (fun e => e.names.zip e.interpretations)).foldl itemsStep [] := by
  suffices h : ∀ acc : List (String × Interp),
      eras.foldl (fun acc e => (e.names.zip e.interpretations).foldl itemsStep acc) acc =
        (eras.flatMap (fun e => e.names.zip e.interpretations)).foldl itemsStep acc by
    exact h []
  induction eras with
  | nil => intro acc; rfl
  | cons e rest ih =>
    intro acc
    simp only [List.foldl_cons, List.flatMap_cons, List.foldl_append]
    exact ih _

theorem itemsStep_keys (acc : List (String × Interp)) (p : String × Interp) :
    (itemsStep acc p).map (·.1) = seenAdd (acc.map (·.1)) p.1 := by
  induction acc with
  | nil => simp [itemsStep, seenAdd]
  | cons q rest ih =>
    by_cases h : q.1 = p.1
    · simp only [itemsStep, beq_iff_eq, h, if_true, List.map_cons, seenAdd,
        List.contains_cons, beq_self_eq_true, Bool.true_or, if_true]
    · simp only [itemsStep, beq_iff_eq, h, if_false, List.map_cons, ih, seenAdd,
        List.contains_cons]
      have hne : (p.1 == q.1) = false := by
        simp [beq_eq_false_iff_ne]
        exact fun hh => h hh.symm
      rw [hne]
      simp only [Bool.false_or]
      by_cases hc : (rest.map (·.1)).contains p.1 = true
      · rw [if_pos hc, if_pos hc]
      · rw [if_neg hc, if_neg hc]
        rfl

theorem itemsFold_keys (ps : List (String × Interp)) (acc : List (String × Interp)) :
    (ps.foldl itemsStep acc).map (·.1) = (ps.map (·.1)).foldl seenAdd (acc.map (·.1)) := by
  induction ps generalizing acc with
  | nil => rfl
  | cons p rest ih =>
    simp only [List.foldl_cons, List.map_cons]
    rw [ih, itemsStep_keys]

theorem find_itemsStep (acc : List (String × Interp)) (p : String × Interp) (n : String) :
    (itemsStep acc p).find? (fun q => q.1 == n) =
      if p.1 = n then some (n, p.2) else acc.find? (fun q => q.1 == n) := by
  induction acc with
  | nil =>
    by_cases h : p.1 = n
    · simp only [itemsStep, h, if_true]
      rw [List.find?_cons_of_pos _ (by simp [h]), ← h]
    · simp only [itemsStep, h, if_false]
      rw [List.find?_cons_of_neg _ (by simp [h])]
  | cons q rest ih =>
    by_cases hq : q.1 = p.1
    · simp only [itemsStep, beq_iff_eq, hq, if_true]
      by_cases hn : p.1 = n
      · rw [List.find?_cons_of_pos _ (by simp [hq, hn]), if_pos hn, hn]
      · rw [List.find?_cons_of_neg _ (by simp [hq, hn]), if_neg hn,
          List.find?_cons_of_neg _ (by simp [hq, hn])]
    · simp only [itemsStep, beq_iff_eq, hq, if_false]
      by_cases hqn : q.1 = n
      · have hpn : ¬ p.1 = n := fun hh => hq (hqn.trans hh.symm)
        rw [List.find?_cons_of_pos _ (by simp [hqn]), if_neg hpn,
          List.find?_cons_of_pos _ (by simp [hqn])]
      · rw [List.find?_cons_of_neg _ (by simp [hqn]), ih]
        by_cases hn : p.1 = n
        · rw [if_pos hn, if_pos hn]
        · rw [if_neg hn, if_neg hn, List.find?_cons_of_neg _ (by simp [hqn])]

theorem itemsFold_lookup (ps : List (String × Interp)) (n : String) :
    (ps.foldl itemsStep []).find? (fun q => q.1 == n) =
      (ps.reverse.find? (fun q => q.1 == n)).map (fun q => (n, q.2)) := by
  induction ps using List.reverseRecOn with
  | nil => rfl
  | append_singleton qs p ih =>
    rw [List.foldl_append]
    simp only [List.foldl_cons, List.foldl_nil]
    rw [find_itemsStep, List.reverse_append]
    simp only [List.reverse_cons, List.reverse_nil, List.nil_append,
      List.singleton_append]
    by_cases h : p.1 = n
    · rw [if_pos h, List.find?_cons_of_pos _ (by simp [h])]
      simp [h]
    · rw [if_neg h, List.find?_cons_of_neg _ (by simp [h]), ih]

theorem seenAdd_nodup (acc : List String) (n : String) (h : acc.Nodup) :
    (seenAdd acc n).Nodup := by
  unfold seenAdd
  split
  · exact h
  · rename_i hc
    have hn : n ∉ acc := by simpa using hc
    simp [List.nodup_append, h, hn]

theorem foldl_seenAdd_nodup (l : List String) (acc : List String) (h : acc.Nodup) :
    (l.foldl seenAdd acc).Nodup := by
  induction l generalizing acc with
  | nil => exact h
  | cons x xs ih => exact ih _ (seenAdd_nodup acc x h)

/-- C9: `keys()` is the first-seen-order union of the distinct branch names
across all eras' `names` lists (duplicate-free); `items()` has one pair per
distinct name, in the same first-seen order, and the interpretation reported
for a name is the LAST one written for it in era order (the last era that
redefines the name wins).  Well-formedness hypothesis: each era has at least
as many interpretations as names (collector-produced eras have equal
lengths). -/
theorem keys_items_union (eras : List Era) (n : String)
    (hw : ∀ e ∈ eras, e.names.length ≤ e.interpretations.length) :
    keysFun eras = firstSeenDedup (eras.flatMap (·.names)) ∧
    (keysFun eras).Nodup ∧
    (itemsFun eras).map (·.1) = keysFun eras ∧
    (itemsFun eras).find? (fun q => q.1 == n) =
      ((eras.flatMap (fun e => e.names.zip e.interpretations)).reverse.find?
        (fun q => q.1 == n)).map (fun q => (n, q.2)) := by
  refine ⟨keysFun_eq_flat eras, ?_, ?_, ?_⟩
  · rw [keysFun_eq_flat]
    exact foldl_seenAdd_nodup _ [] (by simp)
  · rw [itemsFun_eq_flat, itemsFold_keys, keysFun_eq_flat]
    unfold firstSeenDedup
    congr 1
    rw [List.map_flatMap]
    clear n
    induction eras with
    | nil => rfl
    | cons e rest ih =>
      simp only [List.flatMap_cons]
      rw [List.map_fst_zip e.names e.interpretations (hw e (List.mem_cons_self e rest)),
        ih (fun e he => hw e (List.mem_cons_of_mem _ he))]
  · rw [itemsFun_eq_flat, itemsFold_lookup]

/-- Two overlapping eras for the C9 witness: "y" appears in both with
different interpretations; the second era's wins. -/
def c9Eras : List Era :=
  [⟨"T", ["x", "y"], [⟨"k1"⟩, ⟨"k2"⟩]⟩, ⟨"T", ["y", "z"], [⟨"k3"⟩, ⟨"k4"⟩]⟩]

/-- C9 witness: the keys/items facts evaluated on two concrete eras. -/
theorem keys_items_union_witness :
    (∀ e ∈ c9Eras, e.names.length ≤ e.interpretations.length) ∧
    (keysFun c9Eras = firstSeenDedup (c9Eras.flatMap (·.names)) ∧
     (keysFun c9Eras).Nodup ∧
     (itemsFun c9Eras).map (·.1) = keysFun c9Eras ∧
     (itemsFun c9Eras).find? (fun q => q.1 == "y") =
       ((c9Eras.flatMap (fun e => e.names.zip e.interpretations)).reverse.find?
         (fun q => q.1 == "y")).map (fun q => ("y", q.2))) :=
  ⟨by decide, keys_items_union c9Eras "y" (by decide)⟩

/-! ## C10: `_fetch_filedata` caching -/

theorem fetchRowsGo_filenames_isSome (store : IndexArray) (rows : List FileRow)
    (i0 : Nat) (st : TUState) (i : Nat)
    (h : (i0 ≤ i ∧ i < i0 + rows.length) ∨ (dget st.filenames i).isSome) :
    (dget (fetchRowsGo store i0 rows st).1.filenames i).isSome := by
  induction rows generalizing i0 st with
  | nil =>
    rcases h with ⟨h1, h2⟩ | h
    · simp only [List.length_nil, Nat.add_zero] at h2
      omega
    · exact h
  | cons r rs ih =>
    simp only [fetchRowsGo]
    apply ih
    rcases h with ⟨h1, h2⟩ | hs
    · by_cases hi : i = i0
      · right
        subst hi
        rw [fetchOneRow_filenames, dget_dset_self]
        rfl
      · left
        simp only [List.length_cons] at h2
        omega
    · right
      rw [fetchOneRow_filenames]
      exact dget_dset_isSome _ _ _ _ hs

/-- C10 (amended): `_fetch_filedata(index_start, index_stop)` fetches nothing
when every file index in the range is already cached; when at least one index
is uncached it fetches the WHOLE `[index_start:index_stop)` slice of
`(filename, era, prefix)` triples in one store access — including the
already-cached indices in that range; after any call every index in the
range is cached, so a repeated call over the same range performs no remote
fetch at all. -/
theorem fetch_filedata_caching (store : IndexArray) (st : TUState)
    (istart istop : Nat) (h : istop ≤ store.file.length) :
    ((List.range' istart (istop - istart)).all
        (fun i => (dget st.filenames i).isSome) = true →
      fetchFiledata store st istart istop = (st, ⟨[], [], []⟩)) ∧
    ((List.range' istart (istop - istart)).all
        (fun i => (dget st.filenames i).isSome) = false →
      (fetchFiledata store st istart istop).2.fileIdx =
        List.range' istart (istop - istart)) ∧
    (fetchFiledata store ((fetchFiledata store st istart istop).1) istart istop).2 =
      ⟨[], [], []⟩ := by
  have hlen : ((store.file.drop istart).take (istop - istart)).length =
      istop - istart := by
    rw [List.length_take, List.length_drop]
    omega
  refine ⟨?_, ?_, ?_⟩
  · intro hall
    unfold fetchFiledata
    rw [if_pos hall]
  · intro hall
    unfold fetchFiledata
    rw [if_neg (by simp [hall])]
    simp only
    rw [hlen]
  · by_cases hall : (List.range' istart (istop - istart)).all
        (fun i => (dget st.filenames i).isSome) = true
    · unfold fetchFiledata
      rw [if_pos hall]
      simp only
      rw [if_pos hall]
    · unfold fetchFiledata
      rw [if_neg hall]
      simp only
      rw [if_pos ?_]
      rw [List.all_eq_true]
      intro i hi
      rw [List.mem_range'_1] at hi
      apply fetchRowsGo_filenames_isSome
      left
      constructor
      · omega
      · rw [hlen]
        omega

/-- A concrete two-file store for the C10 theorems. -/
def c10Store : IndexArray :=
  ⟨[0, 5, 12],
   [⟨"f1", [("x", [⟨500, 5, 40⟩])], 0, 0⟩, ⟨"f2", [("x", [⟨700, 7, 30⟩])], 0, 0⟩],
   [⟨"T", ["x"], [⟨"k"⟩]⟩], ["/d/"]⟩

/-- C10 counterexample: after `_fetch_filedata(0, 1)` file index 0 is cached,
yet `_fetch_filedata(0, 2)` — where only index 1 is missing — fetches the
whole slice `[0, 2)`, re-fetching the already-cached index 0; so "a file
index already present in the filename cache is never re-fetched" is false. -/
theorem fetch_filedata_counterexample :
    (dget ((fetchFiledata c10Store (initTU c10Store) 0 1).1).filenames 0).isSome = true ∧
    (fetchFiledata c10Store ((fetchFiledata c10Store (initTU c10Store) 0 1).1)
      0 2).2.fileIdx = [0, 1] ∧
    0 ∈ (fetchFiledata c10Store ((fetchFiledata c10Store (initTU c10Store) 0 1).1)
      0 2).2.fileIdx :=
  ⟨by rfl, by rfl, by decide⟩

/-- C10 witness: the caching facts evaluated on the concrete store. -/
theorem fetch_filedata_caching_witness :
    2 ≤ c10Store.file.length ∧
    (((List.range' 0 (2 - 0)).all
        (fun i => (dget (initTU c10Store).filenames i).isSome) = true →
      fetchFiledata c10Store (initTU c10Store) 0 2 = (initTU c10Store, ⟨[], [], []⟩)) ∧
     ((List.range' 0 (2 - 0)).all
        (fun i => (dget (initTU c10Store).filenames i).isSome) = false →
      (fetchFiledata c10Store (initTU c10Store) 0 2).2.fileIdx =
        List.range' 0 (2 - 0)) ∧
     (fetchFiledata c10Store
        ((fetchFiledata c10Store (initTU c10Store) 0 2).1) 0 2).2 = ⟨[], [], []⟩) :=
  ⟨by decide, fetch_filedata_caching c10Store (initTU c10Store) 0 2 (by decide)⟩
